/-
Verification of the debian_linux packaging generator (debian/lib/python/debian_linux
and debian/bin/gencontrol.py): a shallow embedding of the version-string parser,
the relation/restriction algebra, the Makefile rule accumulator and the
changelog release-policy checks, with theorems settling the specification's
claims about them.

Strings are modelled as `List Char`; Python sets as `Finset`; fallible
constructors return `Option`/`Except`.  Regular expressions are compiled by
hand into deterministic character scans; a Python `$` anchor also matches just
before a final newline, which `endAnchor` reproduces.
-/
import Mathlib

/-! ## Build restriction terms, lists and formulas (debian.py) -/

/-- A build-profile restriction term: profile name plus negation flag
(`PackageBuildRestrictTerm` in debian.py). -/
structure PackageBuildRestrictTerm where
  negated : Bool
  profile : String
deriving DecidableEq

/-- Characters allowed in a profile name: the regex class complement
`[^()\[\]<>,!\s]` used by `PackageBuildRestrictTerm.__init__`. -/
def termChar (c : Char) : Bool :=
  !(c = '(' || c = ')' || c = '[' || c = ']' || c = '<' || c = '>' || c = ','
    || c = '!' || c.isWhitespace)

/-- `PackageBuildRestrictTerm.__init__`: full match of `(!?)([^()\[\]<>,!\s]+)`,
`none` when the constructor raises `ValueError`. -/
def parseTerm (s : List Char) : Option PackageBuildRestrictTerm :=
  match s with
  | '!' :: rest =>
      if !rest.isEmpty && rest.all termChar then some ⟨true, rest.asString⟩ else none
  | _ =>
      if !s.isEmpty && s.all termChar then some ⟨false, s.asString⟩ else none

/-- A restriction list is a set of terms (`PackageBuildRestrictList`, a frozenset). -/
abbrev PackageBuildRestrictList := Finset PackageBuildRestrictTerm

/-- A restriction formula is a set of restriction lists
(`PackageBuildRestrictFormula`, a set). -/
abbrev PackageBuildRestrictFormula := Finset PackageBuildRestrictList

/-- Characters allowed inside the text of one restriction list: the class
complement `[^()\[\]<>,]` checked by `PackageBuildRestrictList.__new__`. -/
def listAllowedChar (c : Char) : Bool :=
  !(c = '(' || c = ')' || c = '[' || c = ']' || c = '<' || c = '>' || c = ',')

/-- Python `str.split()` with no argument: words separated by runs of
whitespace, with no empty words. -/
def splitWordsAux : List Char → List Char → List (List Char)
  | [], acc => if acc.isEmpty then [] else [acc.reverse]
  | c :: cs, acc =>
      if c.isWhitespace then
        if acc.isEmpty then splitWordsAux cs [] else acc.reverse :: splitWordsAux cs []
      else splitWordsAux cs (c :: acc)

def splitWords (s : List Char) : List (List Char) := splitWordsAux s []

/-- `PackageBuildRestrictList.__new__` on a string: full-match
`[^()\[\]<>,]+`, split into whitespace-separated words, parse each word as a
term, collect into a set; `none` when a check raises `ValueError`. -/
def parseRestrictList (s : List Char) : Option PackageBuildRestrictList :=
  if !s.isEmpty && s.all listAllowedChar then
    ((splitWords s).mapM parseTerm).map List.toFinset
  else none

/-- One attempt of the formula regex `' *<([^>]+)>(?: +|$)'` anchored at the
start of `s` (the pattern is deterministic: every greedy run is forced).
Returns the captured group body and the remaining input after the match. -/
def matchToken (s : List Char) : Option (List Char × List Char) :=
  match s.dropWhile (· = ' ') with
  | [] => none
  | c1 :: s2 =>
      if c1 = '<' then
        match s2.dropWhile (· ≠ '>') with
        | [] => none
        | c3 :: s4 =>
            if c3 = '>' then
              if (s2.takeWhile (· ≠ '>')).isEmpty then none
              else
                match s4 with
                | [] => some (s2.takeWhile (· ≠ '>'), [])
                | c5 :: _ =>
                    if c5 = ' ' then
                      some (s2.takeWhile (· ≠ '>'), s4.dropWhile (· = ' '))
                    else none
            else none
      else none

/-- The contiguity loop of `PackageBuildRestrictFormula.update`: matches of the
token regex must tile the whole input, each starting where the previous one
ended; the captured bodies are returned in order.  `fuel` only bounds the
recursion (every successful match consumes at least three characters). -/
def parseFormulaAux : Nat → List Char → Option (List (List Char))
  | _, [] => some []
  | 0, _ :: _ => none
  | fuel + 1, c :: cs =>
      match matchToken (c :: cs) with
      | some (body, rest) => (parseFormulaAux fuel rest).map fun l => body :: l
      | none => none

/-- `PackageBuildRestrictFormula.update` on a string: the matches must consume
the entire input contiguously, then every captured group is parsed as a
restriction list and added to the set; `none` when the method raises. -/
def PackageBuildRestrictFormula.update (s : List Char) :
    Option PackageBuildRestrictFormula :=
  (parseFormulaAux (s.length + 1) s).bind fun bodies =>
    (bodies.mapM parseRestrictList).map List.toFinset

/-- `restriction_requires_profile` (debian.py): an empty formula requires no
profile (this is checked before the profile is even parsed); otherwise the
profile string is parsed as a term and the result is whether every list of the
formula contains that term.  `none` when `PackageBuildRestrictTerm` raises. -/
def restriction_requires_profile (form : PackageBuildRestrictFormula)
    (profile : List Char) : Option Bool :=
  if form = ∅ then some false
  else
    match parseTerm profile with
    | none => none
    | some term => some (decide (∀ lst ∈ form, term ∈ lst))

/-- Modelled from the spec: the satisfaction semantics of a restriction
formula, which the code never evaluates itself.  A formula is satisfied by a
build profile set `P` iff some list has every term satisfied — a term is
satisfied iff its profile is in `P` when unnegated, or not in `P` when
negated (OR across lists, AND within a list). -/
def formulaSatisfied (form : PackageBuildRestrictFormula) (P : Finset String) : Prop :=
  ∃ lst ∈ form, ∀ t ∈ lst,
    (t.negated = false → t.profile ∈ P) ∧ (t.negated = true → t.profile ∉ P)

instance (form : PackageBuildRestrictFormula) (P : Finset String) :
    Decidable (formulaSatisfied form P) := by
  unfold formulaSatisfied; infer_instance

/-! ## Package relations (debian.py) -/

/-- The six relation operators (`PackageRelationEntryOperator`). -/
inductive PackageRelationEntryOperator
  | op_lt | op_le | op_eq | op_ne | op_ge | op_gt
deriving DecidableEq

/-- A single relation entry (`PackageRelationEntry`): name, optional operator
and version, architecture set and restriction formula. -/
structure PackageRelationEntry where
  name : String
  operator : Option PackageRelationEntryOperator
  version : Option String
  arches : Finset String
  restrictions : PackageBuildRestrictFormula
deriving DecidableEq

/-- A relation group is an ordered list of alternative entries
(`PackageRelationGroup`). -/
abbrev PackageRelationGroup := List PackageRelationEntry

/-- A relation is an ordered list of groups (`PackageRelation`). -/
abbrev PackageRelation := List PackageRelationGroup

/-- The per-entry comparison used by `PackageRelationGroup._merge_eq`: equality
on name, operator, version and restrictions — arches excluded. -/
def entryMergeEq (i j : PackageRelationEntry) : Bool :=
  decide (i.name = j.name ∧ i.operator = j.operator ∧ i.version = j.version
          ∧ i.restrictions = j.restrictions)

/-- `PackageRelationGroup._merge_eq` without its return value: the zipped entry
pairs (truncated to the shorter group) all compare equal on the four fields.
The Python method returns `self` on success, `None` otherwise. -/
def PackageRelationGroup.mergeEq (g v : PackageRelationGroup) : Bool :=
  (List.zip g v).all fun p => entryMergeEq p.1 p.2

/-- The in-place arch union performed by `PackageRelation.merge` on the matched
group `g`: each zipped position of `g` gets the union of the two arch sets,
entries of `g` beyond `v`'s length are kept unchanged, entries of `v` beyond
`g`'s length are dropped by `zip`. -/
def groupUnionArches (g v : PackageRelationGroup) : PackageRelationGroup :=
  ((List.zip g v).map fun p => { p.1 with arches := p.1.arches ∪ p.2.arches })
    ++ g.drop v.length

/-- `PackageRelation._merge_eq`: the first group whose `_merge_eq` result is
truthy.  An empty group is falsy in Python, so empty groups never match. -/
def PackageRelation.mergeEq : PackageRelation → PackageRelationGroup →
    Option PackageRelationGroup
  | [], _ => none
  | g :: gs, v =>
      if PackageRelationGroup.mergeEq g v && !g.isEmpty then some g
      else PackageRelation.mergeEq gs v

/-- `PackageRelation.merge`: replace the first truthy-matching group by its
arch-unioned version, otherwise append `v` as a new group at the end. -/
def PackageRelation.merge : PackageRelation → PackageRelationGroup → PackageRelation
  | [], v => [v]
  | g :: gs, v =>
      if PackageRelationGroup.mergeEq g v && !g.isEmpty then groupUnionArches g v :: gs
      else g :: PackageRelation.merge gs v

/-! ## Version strings (debian.py, class Version) -/

/-- The upstream grammar's character class `[A-Za-z0-9.+\-:~]`. -/
def upstreamChar (c : Char) : Bool :=
  c.isAlpha || c.isDigit || c = '.' || c = '+' || c = '-' || c = ':' || c = '~'

/-- The revision grammar's character class `[A-Za-z0-9+.~]`. -/
def revisionChar (c : Char) : Bool :=
  c.isAlpha || c.isDigit || c = '+' || c = '.' || c = '~'

/-- Python's `$` anchor at offset `k` of `s`: at the end of the string, or just
before a newline that ends the string. -/
def endAnchor (s : List Char) (k : Nat) : Bool :=
  (s.drop k).isEmpty || s.drop k = ['\n']

/-- `re.match(r'\d+$', s)`: a nonempty digit run from the start reaching the
end anchor (the greedy run is forced, as `$` cannot hold inside it). -/
def reMatchEpoch (s : List Char) : Bool :=
  let d := s.takeWhile Char.isDigit
  !d.isEmpty && endAnchor s d.length

/-- `re.match(r'[0-9][A-Za-z0-9.+\-:~]*$', s)`. -/
def reMatchUpstream (s : List Char) : Bool :=
  match s with
  | [] => false
  | c :: rest => c.isDigit && endAnchor s (1 + (rest.takeWhile upstreamChar).length)

/-- `re.match(r'[A-Za-z0-9+.~]+$', s)`. -/
def reMatchRevision (s : List Char) : Bool :=
  let d := s.takeWhile revisionChar
  !d.isEmpty && endAnchor s d.length

/-- `s.index(c)` splitting: the part before the first occurrence of `c` and the
part after it; `none` when `c` does not occur (`ValueError`). -/
def splitFirst (c : Char) (s : List Char) : Option (List Char × List Char) :=
  if c ∈ s then some (s.takeWhile (· ≠ c), (s.dropWhile (· ≠ c)).tail) else none

/-- `s.rindex(c)` splitting: the part before the last occurrence of `c` and the
part after it; `none` when `c` does not occur. -/
def splitLast (c : Char) (s : List Char) : Option (List Char × List Char) :=
  if c ∈ s then
    some (((s.reverse.dropWhile (· ≠ c)).tail).reverse,
          (s.reverse.takeWhile (· ≠ c)).reverse)
  else none

/-- Python `int()` applied to a matched epoch string: the decimal value of its
leading digit run (`\d+$` allows only a final newline after the digits, which
`int` strips). -/
def digitsVal (s : List Char) : Nat :=
  (s.takeWhile Char.isDigit).foldl (fun a c => 10 * a + (c.toNat - 48)) 0

/-- The three stored components of a parsed `Version`. -/
structure VersionParts where
  epoch : Option Nat
  upstream : List Char
  revision : Option (List Char)
deriving DecidableEq

/-- The final validation of `Version.__init__`: each present component must
match its grammar, the epoch is converted with `int()`; `none` when the
constructor raises `RuntimeError`. -/
def parseVersionCheck (e : Option (List Char)) (u : List Char)
    (r : Option (List Char)) : Option VersionParts :=
  if (match e with | some ep => reMatchEpoch ep | none => true)
      && reMatchUpstream u
      && (match r with | some rv => reMatchRevision rv | none => true) then
    some ⟨e.map digitsVal, u, r⟩
  else none

/-- The second split of `Version.__init__`: `rest.rindex('-')` separates
upstream from revision; no `-` means no revision. -/
def parseVersionRest (e : Option (List Char)) (rest : List Char) :
    Option VersionParts :=
  match splitLast '-' rest with
  | some q => parseVersionCheck e q.1 (some q.2)
  | none => parseVersionCheck e rest none

/-- `Version.__init__`: `version.index(':')` splits the string at the first
`:` into epoch and rest (no `:` means no epoch), then the rest is split at
the last `-` and all parts are validated. -/
def parseVersion (s : List Char) : Option VersionParts :=
  match splitFirst ':' s with
  | some p => parseVersionRest (some p.1) p.2
  | none => parseVersionRest none s

/-- Follows the specification's words, for comparison with `parseVersion`:
the spec says construction splits "on the last `:` (epoch boundary)", so this
variant uses `splitLast` for the epoch while everything else is unchanged. -/
def parseVersionSpecLastColon (s : List Char) : Option VersionParts :=
  match splitLast ':' s with
  | some p => parseVersionRest (some p.1) p.2
  | none => parseVersionRest none s

/-- Decimal digits of a natural number, most significant first (`"%d" % n`);
`fuel` only bounds the recursion. -/
def natToCharsAux : Nat → Nat → List Char
  | 0, _ => []
  | fuel + 1, n =>
      if n < 10 then [Nat.digitChar n]
      else natToCharsAux fuel (n / 10) ++ [Nat.digitChar (n % 10)]

def natToChars (n : Nat) : List Char := natToCharsAux (n + 1) n

/-- `Version.complete`: `epoch:upstream-revision` with absent parts omitted. -/
def versionComplete (v : VersionParts) : List Char :=
  (match v.epoch with
   | some e => natToChars e ++ [':']
   | none => []) ++
  v.upstream ++
  (match v.revision with
   | some r => '-' :: r
   | none => [])

/-! ## Makefile rule accumulator (gencontrol.py, class Makefile)

The command payload type is a parameter `α`: the rule-graph claims do not
inspect command blocks, only the rule map and its dependency edges. -/

/-- `MakefileRule`: accumulated command blocks in registration order plus a
dependency set. -/
structure MakefileRule (α : Type) where
  cmds : List α
  deps : Finset String

/-- A fresh `MakefileRule(name)`. -/
def mfEmptyRule (α : Type) : MakefileRule α := ⟨[], ∅⟩

/-- `Makefile.rules`: an insertion-ordered mapping from rule name to rule. -/
abbrev Makefile (α : Type) := List (String × MakefileRule α)

def mfKeys {α : Type} (m : Makefile α) : List String := m.map Prod.fst

/-- `self.rules.setdefault(name, MakefileRule(name))`. -/
def mfSetdefault {α : Type} (m : Makefile α) (name : String) : Makefile α :=
  if name ∈ mfKeys m then m else m ++ [(name, mfEmptyRule α)]

/-- Mutation of the named rule in place. -/
def mfModify {α : Type} (m : Makefile α) (name : String)
    (f : MakefileRule α → MakefileRule α) : Makefile α :=
  m.map fun p => if p.1 = name then (p.1, f p.2) else p

/-- `Makefile.add_cmds` / `Makefile.add_rules`: register the rule if needed and
append one command block (the two methods differ only in the block built). -/
def mfAddCmds {α : Type} (m : Makefile α) (name : String) (c : α) : Makefile α :=
  mfModify (mfSetdefault m name) name fun r => { r with cmds := r.cmds ++ [c] }

/-- `Makefile.add_deps`: register the rule if needed, union the dependency
names into its set, then register a placeholder rule for every dependency. -/
def mfAddDeps {α : Type} (m : Makefile α) (name : String) (deps : List String) :
    Makefile α :=
  let m1 := mfModify (mfSetdefault m name) name
    fun r => { r with deps := r.deps ∪ deps.toFinset }
  deps.foldl (fun acc d => mfSetdefault acc d) m1

/-- The operations `gencontrol` performs on a Makefile (`add_rules` builds a
different command block from `add_cmds` but is otherwise identical). -/
inductive MakefileOp (α : Type)
  | addCmds (name : String) (c : α)
  | addDeps (name : String) (deps : List String)
  | addRules (name : String) (c : α)

def mfApply {α : Type} (m : Makefile α) : MakefileOp α → Makefile α
  | .addCmds name c => mfAddCmds m name c
  | .addDeps name deps => mfAddDeps m name deps
  | .addRules name c => mfAddCmds m name c

def mfApplyAll {α : Type} (ops : List (MakefileOp α)) : Makefile α :=
  ops.foldl mfApply []

/-- No dangling dependency edge: every name in some rule's dependency set is a
key of the rule map. -/
def MfInvariant {α : Type} (m : Makefile α) : Prop :=
  ∀ p ∈ m, ∀ d ∈ p.2.deps, d ∈ mfKeys m

/-! ## Changelog release policy (bin/gencontrol.py, process_changelog) -/

/-- The boolean revision classification flags a `VersionLinux` carries. -/
structure LinuxRevisionFlags where
  experimental : Bool
  security : Bool
  backports : Bool
  other : Bool

/-- The policy error raised: `"Can't upload to %s with a version of %s"` —
every one of the four raises in `process_changelog` builds this same message
from the distribution and the version. -/
inductive PolicyError
  | cantUpload (distribution : List Char)
deriving DecidableEq

/-- `distribution.endswith(suffix)`. -/
def endsWithChars (s suffix : List Char) : Bool :=
  List.isSuffixOf suffix s

/-- The policy checks at the end of `process_changelog` (bin/gencontrol.py
lines 660-679), in code order. -/
def processChangelogPolicy (dist : List Char) (v : LinuxRevisionFlags) :
    Except PolicyError Unit :=
  if dist = "unstable".toList ∧ (v.experimental || v.backports || v.other) then
    .error (.cantUpload dist)
  else if dist = "experimental".toList ∧ !v.experimental then
    .error (.cantUpload dist)
  else if (endsWithChars dist "-security".toList || endsWithChars dist "-lts".toList)
      ∧ (v.backports || v.other) then
    .error (.cantUpload dist)
  else if endsWithChars dist "-backports".toList ∧ !v.backports then
    .error (.cantUpload dist)
  else .ok ()

/-- The generation driver's ordering: `process_changelog` runs in `__init__`,
every output file is written by `write()` at the end of `__call__`
(gencontrol.py lines 151-158).  The model abstracts the construction of the
in-memory model into `build`, the list of outputs written on success. -/
def generate (dist : List Char) (v : LinuxRevisionFlags) (build : List String) :
    Except PolicyError (List String) :=
  match processChangelogPolicy dist v with
  | .error e => .error e
  | .ok () => .ok build

/-! ## Quick-flavour build-profile exclusion (bin/gencontrol.py) -/

/-- Modelled from the spec: one restriction list of a Build-Profiles formula
as the newer library used by bin/gencontrol.py stores it, with separate
positive and negated profile sets — that library version is not under src/
(src's debian.py has no `.pos`/`.neg` fields), so the shape follows the
spec's `{profile, negated}` terms. -/
structure BuildRestrictionSets where
  pos : Finset String
  neg : Finset String
deriving DecidableEq

/-- Modelled from the spec: a per-flavour binary package restricted to the
first Build-Profiles restriction list, the only thing lines 480-483 of
bin/gencontrol.py touch (`package['Build-Profiles'][0]`). -/
structure FlavourPackage where
  buildProfiles0 : BuildRestrictionSets
deriving DecidableEq

/-- Lines 480-483 of bin/gencontrol.py: `if flavour != self.quick_flavour:`
add the negated profile `pkg.linux.quick` to every package's first
Build-Profiles list.  `self.quick_flavour` is `None` when no quick flavour is
configured, and a string never equals `None`. -/
def doFlavourQuickExclusion (quickFlavour : Option String) (flavour : String)
    (packagesOwn : List FlavourPackage) : List FlavourPackage :=
  if some flavour ≠ quickFlavour then
    packagesOwn.map fun p =>
      { p with buildProfiles0 :=
          { p.buildProfiles0 with
              neg := insert "pkg.linux.quick" p.buildProfiles0.neg } }
  else packagesOwn

/-! ## Helper lemmas about `PackageRelation.merge` -/

theorem merge_of_mergeEq_none (r : PackageRelation) (v : PackageRelationGroup)
    (h : PackageRelation.mergeEq r v = none) :
    PackageRelation.merge r v = r ++ [v] := by
  induction r with
  | nil => rfl
  | cons g gs ih =>
      by_cases hc : (PackageRelationGroup.mergeEq g v && !g.isEmpty) = true
      · simp only [PackageRelation.mergeEq, if_pos hc] at h
        simp at h
      · simp only [PackageRelation.mergeEq, if_neg hc] at h
        simp only [PackageRelation.merge, if_neg hc, ih h, List.cons_append]

theorem merge_first_match (pre post : PackageRelation) (g v : PackageRelationGroup)
    (hpre : ∀ g' ∈ pre, ¬(PackageRelationGroup.mergeEq g' v = true ∧ g' ≠ []))
    (hg : PackageRelationGroup.mergeEq g v = true) (hne : g ≠ []) :
    PackageRelation.merge (pre ++ g :: post) v = pre ++ groupUnionArches g v :: post := by
  induction pre with
  | nil =>
      have h1 : g.isEmpty = false := by simpa [List.isEmpty_iff] using hne
      simp [PackageRelation.merge, hg, h1]
  | cons a as ih =>
      have ha := hpre a (List.mem_cons_self a as)
      have hcond : (PackageRelationGroup.mergeEq a v && !a.isEmpty) = false := by
        by_cases h1 : PackageRelationGroup.mergeEq a v = true
        · have h2 : a = [] := by
            by_contra h2
            exact ha ⟨h1, h2⟩
          subst h2
          simp
        · simp [Bool.eq_false_iff.mpr h1]
      have ih' := ih fun g' hg' => hpre g' (List.mem_cons_of_mem a hg')
      simp only [List.cons_append, PackageRelation.merge, hcond, Bool.false_eq_true,
        if_false]
      exact congrArg (fun t => a :: t) ih'

theorem groupUnionArches_eq_zipWith (g v : PackageRelationGroup)
    (h : g.length = v.length) :
    groupUnionArches g v
      = List.zipWith (fun i j => { i with arches := i.arches ∪ j.arches }) g v := by
  induction g generalizing v with
  | nil =>
      cases v with
      | nil => rfl
      | cons j v' => simp at h
  | cons i g' ih =>
      cases v with
      | nil => simp at h
      | cons j v' =>
          have h' : g'.length = v'.length := by simpa using h
          simp only [groupUnionArches, List.zip_cons_cons, List.map_cons,
            List.length_cons, List.drop_succ_cons, List.zipWith_cons_cons,
            List.cons_append, List.cons.injEq, true_and]
          simpa [groupUnionArches] using ih v' h'

theorem groupUnionArches_length (g v : PackageRelationGroup) :
    (groupUnionArches g v).length = g.length := by
  simp only [groupUnionArches, List.length_append, List.length_map, List.length_zip,
    List.length_drop]
  omega

/-- C1 (amended): `merge(r, v)` scans the groups of `r` in order for the first
nonempty group whose zipped entry pairs (truncated to the shorter length) all
agree on name, operator, version and restrictions; if one is found its arches
at the zipped positions become the union of the two entries' arches and no
group is added, otherwise `v` is appended unchanged.  In particular a relation
whose only group is structurally equal to `v` except for arches ends up as one
group whose entries' arch sets are the positionwise unions. -/
theorem claim_C1 :
    (∀ (r : PackageRelation) (v : PackageRelationGroup),
        PackageRelation.mergeEq r v = none →
        PackageRelation.merge r v = r ++ [v]) ∧
    (∀ (g v : PackageRelationGroup), g ≠ [] → g.length = v.length →
        PackageRelationGroup.mergeEq g v = true →
        PackageRelation.merge [g] v = [groupUnionArches g v]) ∧
    (∀ (g v : PackageRelationGroup), g.length = v.length →
        groupUnionArches g v
          = List.zipWith (fun i j => { i with arches := i.arches ∪ j.arches }) g v) := by
  refine ⟨merge_of_mergeEq_none, fun g v hne hlen hg => ?_, groupUnionArches_eq_zipWith⟩
  simpa using merge_first_match [] [] g v (by simp) hg hne

/-- C1 counterexample: the claim as stated predicts that `v` is appended when
no existing group is pairwise equal to it (which requires equal length), but
the code's `zip` also lets a shorter group match: merging the two-entry group
`[a [y], b]` into `[[a [x]]]` does not append, it absorbs `a`'s arches and
drops `b`. -/
theorem claim_C1_counterexample :
    (∀ g ∈ [[(⟨"a", none, none, {"x"}, ∅⟩ : PackageRelationEntry)]],
        ¬(g.length
            = [(⟨"a", none, none, {"y"}, ∅⟩ : PackageRelationEntry),
               ⟨"b", none, none, ∅, ∅⟩].length
          ∧ PackageRelationGroup.mergeEq g
              [⟨"a", none, none, {"y"}, ∅⟩, ⟨"b", none, none, ∅, ∅⟩] = true)) ∧
    PackageRelation.merge [[(⟨"a", none, none, {"x"}, ∅⟩ : PackageRelationEntry)]]
        [⟨"a", none, none, {"y"}, ∅⟩, ⟨"b", none, none, ∅, ∅⟩]
      ≠ [[⟨"a", none, none, {"x"}, ∅⟩],
         [⟨"a", none, none, {"y"}, ∅⟩, ⟨"b", none, none, ∅, ∅⟩]] ∧
    PackageRelation.merge [[(⟨"a", none, none, {"x"}, ∅⟩ : PackageRelationEntry)]]
        [⟨"a", none, none, {"y"}, ∅⟩, ⟨"b", none, none, ∅, ∅⟩]
      = [[⟨"a", none, none, {"x", "y"}, ∅⟩]] := by
  decide

/-- C10 (amended): a nonempty group `g` whose zipped entry pairs with `v` all
agree on the four fields is treated as matching even when the lengths differ —
no new group is appended, the arches are unioned only over the zipped
positions and `v`'s entries beyond `g`'s length are discarded (the matched
group keeps its own length).  Empty groups however are falsy and never match:
merging any group into a relation whose only group is empty appends it, so the
relation does not stay unchanged. -/
theorem claim_C10 :
    (∀ (pre post : PackageRelation) (g v : PackageRelationGroup),
        (∀ g' ∈ pre, ¬(PackageRelationGroup.mergeEq g' v = true ∧ g' ≠ [])) →
        g ≠ [] → PackageRelationGroup.mergeEq g v = true →
        PackageRelation.merge (pre ++ g :: post) v
            = pre ++ groupUnionArches g v :: post ∧
        (PackageRelation.merge (pre ++ g :: post) v).length
            = (pre ++ g :: post).length) ∧
    (∀ (g v : PackageRelationGroup), (groupUnionArches g v).length = g.length) ∧
    (∀ v : PackageRelationGroup, PackageRelation.merge [[]] v = [[], v]) := by
  refine ⟨fun pre post g v hpre hne hg => ?_, groupUnionArches_length, fun v => rfl⟩
  have he := merge_first_match pre post g v hpre hg hne
  refine ⟨he, ?_⟩
  simp [he, groupUnionArches_length]

/-- C10 counterexample: merging a group into a relation whose first (and only)
group is empty does not leave the relation unchanged — the empty group is
skipped as a match candidate and the new group is appended. -/
theorem claim_C10_counterexample :
    PackageRelation.merge [[]] [(⟨"b", none, none, ∅, ∅⟩ : PackageRelationEntry)]
        = [[], [⟨"b", none, none, ∅, ∅⟩]] ∧
    PackageRelation.merge [[]] [(⟨"b", none, none, ∅, ∅⟩ : PackageRelationEntry)]
        ≠ [[]] := by
  decide

/-- C3: `restriction_requires_profile(F, p)` returns true iff `F` is non-empty
and every restriction list of `F` contains the unnegated term for `p`; for the
empty formula it returns false regardless of `p` (the length test precedes
even the parsing of the profile). -/
theorem claim_C3 :
    (∀ p : List Char, restriction_requires_profile ∅ p = some false) ∧
    (∀ (form : PackageBuildRestrictFormula) (p : List Char)
        (t : PackageBuildRestrictTerm), parseTerm p = some t → t.negated = false →
        (restriction_requires_profile form p = some true ↔
          form ≠ ∅ ∧ ∀ lst ∈ form, t ∈ lst)) := by
  constructor
  · intro p
    simp [restriction_requires_profile]
  · intro form p t hp _
    by_cases hform : form = ∅
    · subst hform
      simp [restriction_requires_profile]
    · rw [restriction_requires_profile, if_neg hform, hp]
      simp [hform, decide_eq_true_iff]

/-- C4: parsing `"<a b> <c>"` yields exactly two restriction lists — the
unnegated terms `a`,`b` and the unnegated term `c` — and under the defined
satisfaction semantics the formula is satisfied by `{a,b}` and by `{c}` but
not by `{a}` alone. -/
theorem claim_C4 :
    PackageBuildRestrictFormula.update "<a b> <c>".toList
        = some {{⟨false, "a"⟩, ⟨false, "b"⟩}, {⟨false, "c"⟩}} ∧
    ({{⟨false, "a"⟩, ⟨false, "b"⟩}, {⟨false, "c"⟩}} :
        PackageBuildRestrictFormula).card = 2 ∧
    formulaSatisfied {{⟨false, "a"⟩, ⟨false, "b"⟩}, {⟨false, "c"⟩}} {"a", "b"} ∧
    formulaSatisfied {{⟨false, "a"⟩, ⟨false, "b"⟩}, {⟨false, "c"⟩}} {"c"} ∧
    ¬ formulaSatisfied {{⟨false, "a"⟩, ⟨false, "b"⟩}, {⟨false, "c"⟩}} {"a"} := by
  decide

/-- C9 (amended): the `!pkg.linux.quick` Build-Profiles exclusion is added to a
flavour's packages exactly when the flavour differs from the configured quick
flavour; since an unconfigured quick flavour is `None` and never equals a
flavour string, every flavour's packages receive the exclusion when no quick
flavour is configured. -/
theorem claim_C9 :
    (∀ (q : Option String) (f : String) (pkgs : List FlavourPackage),
        q = some f → doFlavourQuickExclusion q f pkgs = pkgs) ∧
    (∀ (q : Option String) (f : String) (pkgs : List FlavourPackage),
        q ≠ some f →
        doFlavourQuickExclusion q f pkgs
          = pkgs.map fun p =>
              { p with buildProfiles0 :=
                  { p.buildProfiles0 with
                      neg := insert "pkg.linux.quick" p.buildProfiles0.neg } }) ∧
    (∀ (f : String) (pkgs : List FlavourPackage),
        ∀ p ∈ doFlavourQuickExclusion none f pkgs,
          "pkg.linux.quick" ∈ p.buildProfiles0.neg) := by
  refine ⟨fun q f pkgs hq => ?_, fun q f pkgs hq => ?_, fun f pkgs p hp => ?_⟩
  · subst hq
    simp [doFlavourQuickExclusion]
  · rw [doFlavourQuickExclusion, if_pos (fun h => hq h.symm)]
  · rw [doFlavourQuickExclusion, if_pos (by simp)] at hp
    rcases List.mem_map.mp hp with ⟨p0, _, rfl⟩
    exact Finset.mem_insert_self _ _

/-- C9 counterexample: with no quick flavour configured (`None`), the flavour
`"rpi"` still receives the exclusion — the claim says it should receive
none. -/
theorem claim_C9_counterexample :
    doFlavourQuickExclusion none "rpi" [⟨⟨∅, ∅⟩⟩] ≠ [⟨⟨∅, ∅⟩⟩] ∧
    doFlavourQuickExclusion none "rpi" [⟨⟨∅, ∅⟩⟩]
      = [⟨⟨∅, {"pkg.linux.quick"}⟩⟩] := by
  decide

/-! ## Helper lemmas about the Makefile rule map -/

theorem mfKeys_modify {α : Type} (m : Makefile α) (name : String)
    (f : MakefileRule α → MakefileRule α) :
    mfKeys (mfModify m name f) = mfKeys m := by
  simp only [mfKeys, mfModify, List.map_map]
  apply List.map_congr_left
  intro p _
  by_cases h : p.1 = name <;> simp [h]

theorem mem_mfKeys_setdefault {α : Type} (m : Makefile α) (name x : String) :
    x ∈ mfKeys (mfSetdefault m name) ↔ x ∈ mfKeys m ∨ x = name := by
  unfold mfSetdefault
  by_cases h : name ∈ mfKeys m
  · rw [if_pos h]
    constructor
    · exact Or.inl
    · rintro (h1 | rfl)
      · exact h1
      · exact h
  · rw [if_neg h]
    simp [mfKeys]

theorem mem_mfKeys_foldl_setdefault {α : Type} (ds : List String) (m : Makefile α)
    (x : String) :
    x ∈ mfKeys (ds.foldl (fun acc d => mfSetdefault acc d) m)
      ↔ x ∈ mfKeys m ∨ x ∈ ds := by
  induction ds generalizing m with
  | nil => simp
  | cons d ds ih =>
      rw [List.foldl_cons, ih, mem_mfKeys_setdefault]
      simp only [List.mem_cons]
      tauto

theorem mem_mfSetdefault {α : Type} {m : Makefile α} {name : String}
    {p : String × MakefileRule α} (h : p ∈ mfSetdefault m name) :
    p ∈ m ∨ p = (name, mfEmptyRule α) := by
  unfold mfSetdefault at h
  split at h
  · exact Or.inl h
  · rcases List.mem_append.mp h with h | h
    · exact Or.inl h
    · right
      simpa using h

theorem mem_mfModify {α : Type} {m : Makefile α} {name : String}
    {f : MakefileRule α → MakefileRule α} {p : String × MakefileRule α}
    (h : p ∈ mfModify m name f) :
    ∃ q ∈ m, p = q ∨ (q.1 = name ∧ p = (q.1, f q.2)) := by
  rcases List.mem_map.mp h with ⟨q, hq, rfl⟩
  refine ⟨q, hq, ?_⟩
  by_cases hn : q.1 = name
  · right
    exact ⟨hn, by rw [if_pos hn]⟩
  · left
    rw [if_neg hn]

theorem mem_foldl_setdefault {α : Type} {ds : List String} {m : Makefile α}
    {p : String × MakefileRule α}
    (h : p ∈ ds.foldl (fun acc d => mfSetdefault acc d) m) :
    p ∈ m ∨ p.2 = mfEmptyRule α := by
  induction ds generalizing m with
  | nil => exact Or.inl h
  | cons d ds ih =>
      rcases ih (by simpa using h) with h1 | h1
      · rcases mem_mfSetdefault h1 with h2 | h2
        · exact Or.inl h2
        · right
          rw [h2]
      · exact Or.inr h1

theorem mfInvariant_addCmds {α : Type} (m : Makefile α) (n : String) (c : α)
    (h : MfInvariant m) : MfInvariant (mfAddCmds m n c) := by
  intro p hp d hd
  unfold mfAddCmds at hp ⊢
  rw [mfKeys_modify, mem_mfKeys_setdefault]
  rcases mem_mfModify hp with ⟨q, hq, hpq⟩
  have hdq : d ∈ q.2.deps := by
    rcases hpq with rfl | ⟨_, rfl⟩
    · exact hd
    · simpa using hd
  rcases mem_mfSetdefault hq with hq1 | hq1
  · exact Or.inl (h q hq1 d hdq)
  · rw [hq1] at hdq
    simp [mfEmptyRule] at hdq

theorem mfInvariant_addDeps {α : Type} (m : Makefile α) (n : String)
    (ds : List String) (h : MfInvariant m) : MfInvariant (mfAddDeps m n ds) := by
  intro p hp d hd
  unfold mfAddDeps at hp ⊢
  rw [mem_mfKeys_foldl_setdefault, mfKeys_modify, mem_mfKeys_setdefault]
  rcases mem_foldl_setdefault hp with hp1 | hp1
  · rcases mem_mfModify hp1 with ⟨q, hq, hpq⟩
    have hdq : d ∈ q.2.deps ∨ d ∈ ds := by
      rcases hpq with rfl | ⟨_, rfl⟩
      · exact Or.inl hd
      · simp only [Finset.mem_union, List.mem_toFinset] at hd
        simpa using hd
    rcases hdq with hdq | hdq
    · rcases mem_mfSetdefault hq with hq1 | hq1
      · exact Or.inl (Or.inl (h q hq1 d hdq))
      · rw [hq1] at hdq
        simp [mfEmptyRule] at hdq
    · exact Or.inr hdq
  · rw [hp1] at hd
    simp [mfEmptyRule] at hd

theorem mfInvariant_apply {α : Type} (m : Makefile α) (op : MakefileOp α)
    (h : MfInvariant m) : MfInvariant (mfApply m op) := by
  cases op with
  | addCmds n c => exact mfInvariant_addCmds m n c h
  | addDeps n ds => exact mfInvariant_addDeps m n ds h
  | addRules n c => exact mfInvariant_addCmds m n c h

/-- C6: after any sequence of `add_deps`, `add_cmds` and `add_rules` operations
starting from the empty Makefile, every name in some rule's dependency set is
itself a key of the rule map — no dependency edge dangles. -/
theorem claim_C6 : ∀ (α : Type) (ops : List (MakefileOp α)),
    MfInvariant (mfApplyAll ops) := by
  intro α ops
  have base : MfInvariant ([] : Makefile α) := by
    intro p hp
    simp at hp
  have gen : ∀ (l : List (MakefileOp α)) (m : Makefile α),
      MfInvariant m → MfInvariant (l.foldl mfApply m) := by
    intro l
    induction l with
    | nil => exact fun m hm => hm
    | cons op l ih =>
        intro m hm
        exact ih (mfApply m op) (mfInvariant_apply m op hm)
  exact gen ops [] base

/-- C8: when the changelog's first-entry distribution ends in `-backports` and
the parsed version's revision carries no backports marker, generation aborts
with the policy error raised by `process_changelog` — which runs before any
build step — so no output is produced. -/
theorem claim_C8 :
    ∀ (dist : List Char) (v : LinuxRevisionFlags) (build : List String),
      endsWithChars dist "-backports".toList = true → v.backports = false →
      generate dist v build = .error (.cantUpload dist) := by
  intro dist v build hend hbp
  have hp : processChangelogPolicy dist v = .error (.cantUpload dist) := by
    unfold processChangelogPolicy
    by_cases h1 : dist = "unstable".toList ∧ (v.experimental || v.backports || v.other) = true
    · rw [if_pos h1]
    · rw [if_neg h1]
      by_cases h2 : dist = "experimental".toList ∧ (!v.experimental) = true
      · rw [if_pos h2]
      · rw [if_neg h2]
        by_cases h3 : (endsWithChars dist "-security".toList
            || endsWithChars dist "-lts".toList) = true ∧ (v.backports || v.other) = true
        · rw [if_pos h3]
        · rw [if_neg h3]
          rw [if_pos ⟨hend, by simp [hbp]⟩]
  simp [generate, hp]

/-- C8 witness: a concrete backports distribution with a plain revision. -/
theorem claim_C8_witness :
    generate "bookworm-backports".toList ⟨false, false, false, false⟩ []
      = .error (.cantUpload "bookworm-backports".toList) :=
  claim_C8 "bookworm-backports".toList ⟨false, false, false, false⟩ [] (by decide) rfl

/-! ## Full-consumption soundness of the formula parser -/

theorem dropWhile_head_not {α : Type} (p : α → Bool) (l : List α) (c : α) (cs : List α)
    (h : l.dropWhile p = c :: cs) : p c = false := by
  induction l with
  | nil => simp at h
  | cons x xs ih =>
      by_cases hp : p x = true
      · rw [List.dropWhile_cons_of_pos hp] at h
        exact ih h
      · rw [List.dropWhile_cons_of_neg hp] at h
        cases h
        exact Bool.eq_false_iff.mpr hp

/-- The exact shape of inputs `matchToken` accepts: optional spaces, `<`, a
nonempty body free of `>`, `>`, then either spaces or the end of the match. -/
theorem matchToken_decomp {s body rest : List Char}
    (h : matchToken s = some (body, rest)) :
    ∃ sp tr, (∀ c ∈ sp, c = ' ') ∧ (∀ c ∈ tr, c = ' ')
      ∧ body ≠ [] ∧ (∀ c ∈ body, c ≠ '>')
      ∧ (tr ≠ [] ∨ rest = [])
      ∧ s = sp ++ '<' :: (body ++ '>' :: (tr ++ rest)) := by
  unfold matchToken at h
  split at h
  · exact absurd h (by simp)
  rename_i c1 s2 hdw
  split at h
  case isFalse => exact absurd h (by simp)
  rename_i hc1
  subst hc1
  split at h
  · exact absurd h (by simp)
  rename_i c3 s4 hdw2
  split at h
  case isFalse => exact absurd h (by simp)
  rename_i hc3
  subst hc3
  split at h
  case isTrue => exact absurd h (by simp)
  rename_i hbe
  set SP := s.takeWhile (· = ' ') with hSP
  set B := s2.takeWhile (· ≠ '>') with hB
  have hsplit : SP ++ s.dropWhile (· = ' ') = s := List.takeWhile_append_dropWhile _ _
  have hspmem : ∀ c ∈ SP, c = ' ' := fun c hc => by
    rw [hSP] at hc
    simpa using List.mem_takeWhile_imp hc
  have hsplit2 : B ++ s2.dropWhile (· ≠ '>') = s2 := List.takeWhile_append_dropWhile _ _
  have hbodymem : ∀ c ∈ B, c ≠ '>' := fun c hc => by
    rw [hB] at hc
    simpa using List.mem_takeWhile_imp hc
  have hbody_ne : B ≠ [] := by
    intro hnil
    rw [hnil] at hbe
    exact hbe rfl
  have hss : s = SP ++ '<' :: s2 := by
    rw [← hsplit, hdw]
  have hs2eq : s2 = B ++ '>' :: s4 := by
    rw [← hsplit2, hdw2]
  split at h
  · rw [Option.some.injEq, Prod.mk.injEq] at h
    obtain ⟨hb, hr⟩ := h
    refine ⟨SP, [], hspmem, by simp, hb ▸ hbody_ne, hb ▸ hbodymem, Or.inr hr.symm, ?_⟩
    rw [← hb, ← hr, hss, hs2eq]
    simp
  rename_i c5 s5
  split at h
  case isFalse => exact absurd h (by simp)
  rename_i hc5
  subst hc5
  rw [Option.some.injEq, Prod.mk.injEq] at h
  obtain ⟨hb, hr⟩ := h
  set TR := (' ' :: s5).takeWhile (· = ' ') with hTR
  have htrmem : ∀ c ∈ TR, c = ' ' := fun c hc => by
    rw [hTR] at hc
    simpa using List.mem_takeWhile_imp hc
  have htrsplit : TR ++ (' ' :: s5).dropWhile (· = ' ') = ' ' :: s5 :=
    List.takeWhile_append_dropWhile _ _
  have htr_ne : TR ≠ [] := by
    rw [hTR]
    simp [List.takeWhile_cons]
  refine ⟨SP, TR, hspmem, htrmem, hb ▸ hbody_ne, hb ▸ hbodymem, Or.inl htr_ne, ?_⟩
  rw [← hb, ← hr, hss, hs2eq, htrsplit]

/-- The declarative full-consumption property: the string is exactly a
concatenation of space-padded angle-bracket groups, each group followed by at
least one space unless it ends the string. -/
inductive FormulaChunks : List Char → Prop
  | nil : FormulaChunks []
  | chunk (sp body tr rest : List Char) :
      (∀ c ∈ sp, c = ' ') → body ≠ [] → (∀ c ∈ body, c ≠ '>') →
      (∀ c ∈ tr, c = ' ') → (tr ≠ [] ∨ rest = []) → FormulaChunks rest →
      FormulaChunks (sp ++ '<' :: (body ++ '>' :: (tr ++ rest)))

theorem parseFormulaAux_sound (fuel : Nat) :
    ∀ (s : List Char) (bodies : List (List Char)),
      parseFormulaAux fuel s = some bodies → FormulaChunks s := by
  induction fuel with
  | zero =>
      intro s bodies h
      cases s with
      | nil => exact FormulaChunks.nil
      | cons c cs => exact absurd h (by simp [parseFormulaAux])
  | succ fuel ih =>
      intro s bodies h
      cases s with
      | nil => exact FormulaChunks.nil
      | cons c cs =>
          rw [parseFormulaAux] at h
          split at h
          · rename_i body rest hmt
            obtain ⟨bs, hbs⟩ : ∃ bs, parseFormulaAux fuel rest = some bs := by
              cases hr : parseFormulaAux fuel rest with
              | none =>
                  rw [hr] at h
                  exact absurd h (by simp)
              | some bs => exact ⟨bs, rfl⟩
            obtain ⟨sp, tr, h1, h2, h3, h4, h5, h6⟩ := matchToken_decomp hmt
            rw [h6]
            exact FormulaChunks.chunk sp body tr rest h1 h3 h4 h2 h5 (ih rest bs hbs)
          · exact absurd h (by simp)

/-- C5: constructing a `PackageBuildRestrictFormula` from a string succeeds
only if the angle-bracket-group grammar consumes the entire input contiguously
(groups separated only by whitespace): whenever `update` returns a formula,
the input decomposes exactly into such groups; any gap, trailing text or other
partial match yields `none`, adding no lists. -/
theorem claim_C5 :
    ∀ s : List Char, (PackageBuildRestrictFormula.update s).isSome = true →
      FormulaChunks s := by
  intro s h
  unfold PackageBuildRestrictFormula.update at h
  cases haux : parseFormulaAux (s.length + 1) s with
  | none =>
      rw [haux] at h
      simp at h
  | some bodies => exact parseFormulaAux_sound _ s bodies haux

/-- C5 witness: the one-group formula text `"<a>"` parses, and is indeed a
full tiling by angle-bracket groups. -/
theorem claim_C5_witness : FormulaChunks ("<a>".toList) :=
  claim_C5 "<a>".toList (by decide)

/-! ## First- and last-occurrence splitting lemmas -/

theorem takeWhile_ne_append (c : Char) (a b : List Char) (ha : c ∉ a) :
    (a ++ c :: b).takeWhile (· ≠ c) = a := by
  induction a with
  | nil => simp [List.takeWhile_cons]
  | cons x xs ih =>
      have hx : x ≠ c := fun hxc => ha (hxc ▸ List.mem_cons_self x xs)
      have hxs : c ∉ xs := fun hm => ha (List.mem_cons_of_mem x hm)
      have e1 : (x :: (xs ++ c :: b)).takeWhile (· ≠ c)
          = x :: (xs ++ c :: b).takeWhile (· ≠ c) := by
        simp [List.takeWhile_cons, hx]
      rw [List.cons_append, e1, ih hxs]

theorem dropWhile_ne_append (c : Char) (a b : List Char) (ha : c ∉ a) :
    (a ++ c :: b).dropWhile (· ≠ c) = c :: b := by
  induction a with
  | nil => simp [List.dropWhile_cons]
  | cons x xs ih =>
      have hx : x ≠ c := fun hxc => ha (hxc ▸ List.mem_cons_self x xs)
      have hxs : c ∉ xs := fun hm => ha (List.mem_cons_of_mem x hm)
      have e2 : (x :: (xs ++ c :: b)).dropWhile (· ≠ c)
          = (xs ++ c :: b).dropWhile (· ≠ c) := by
        simp [List.dropWhile_cons, hx]
      rw [List.cons_append, e2, ih hxs]

theorem first_occ_decomp (c : Char) (s : List Char) (h : c ∈ s) :
    s = s.takeWhile (· ≠ c) ++ c :: (s.dropWhile (· ≠ c)).tail
      ∧ c ∉ s.takeWhile (· ≠ c) := by
  induction s with
  | nil => cases h
  | cons x xs ih =>
      by_cases hx : x = c
      · subst hx
        constructor
        · simp [List.takeWhile_cons, List.dropWhile_cons]
        · simp [List.takeWhile_cons]
      · have hc : c ∈ xs := by
          rcases List.mem_cons.mp h with h1 | h1
          · exact absurd h1.symm hx
          · exact h1
        obtain ⟨ih1, ih2⟩ := ih hc
        have e1 : (x :: xs).takeWhile (· ≠ c) = x :: xs.takeWhile (· ≠ c) := by
          simp [List.takeWhile_cons, hx]
        have e2 : (x :: xs).dropWhile (· ≠ c) = xs.dropWhile (· ≠ c) := by
          simp [List.dropWhile_cons, hx]
        constructor
        · rw [e1, e2, List.cons_append]
          exact congrArg (fun t => x :: t) ih1
        · rw [e1]
          intro hmem
          rcases List.mem_cons.mp hmem with h1 | h1
          · exact hx h1.symm
          · exact ih2 h1

theorem splitFirst_eq_some (c : Char) (a b : List Char) (ha : c ∉ a) :
    splitFirst c (a ++ c :: b) = some (a, b) := by
  unfold splitFirst
  rw [if_pos (by simp)]
  rw [takeWhile_ne_append c a b ha, dropWhile_ne_append c a b ha]
  rfl

theorem splitFirst_eq_none {c : Char} {s : List Char} (h : c ∉ s) :
    splitFirst c s = none := by
  unfold splitFirst
  rw [if_neg h]

theorem splitFirst_none_not_mem {c : Char} {s : List Char}
    (h : splitFirst c s = none) : c ∉ s := by
  unfold splitFirst at h
  split at h
  · exact absurd h (by simp)
  · assumption

theorem splitFirst_some_decomp {c : Char} {s a b : List Char}
    (h : splitFirst c s = some (a, b)) : s = a ++ c :: b ∧ c ∉ a := by
  unfold splitFirst at h
  split at h
  case isFalse => exact absurd h (by simp)
  rename_i hmem
  rw [Option.some.injEq, Prod.mk.injEq] at h
  obtain ⟨ha, hb⟩ := h
  obtain ⟨d1, d2⟩ := first_occ_decomp c s hmem
  subst ha
  subst hb
  exact ⟨d1, d2⟩

theorem splitLast_eq_some (c : Char) (a b : List Char) (hb : c ∉ b) :
    splitLast c (a ++ c :: b) = some (a, b) := by
  unfold splitLast
  rw [if_pos (by simp)]
  have hrev : (a ++ c :: b).reverse = b.reverse ++ c :: a.reverse := by simp
  have hb' : c ∉ b.reverse := by simpa using hb
  rw [hrev, takeWhile_ne_append c _ _ hb', dropWhile_ne_append c _ _ hb']
  simp

theorem splitLast_eq_none {c : Char} {s : List Char} (h : c ∉ s) :
    splitLast c s = none := by
  unfold splitLast
  rw [if_neg h]

theorem splitLast_none_not_mem {c : Char} {s : List Char}
    (h : splitLast c s = none) : c ∉ s := by
  unfold splitLast at h
  split at h
  · exact absurd h (by simp)
  · assumption

theorem splitLast_some_decomp {c : Char} {s a b : List Char}
    (h : splitLast c s = some (a, b)) : s = a ++ c :: b ∧ c ∉ b := by
  unfold splitLast at h
  split at h
  case isFalse => exact absurd h (by simp)
  rename_i hmem
  rw [Option.some.injEq, Prod.mk.injEq] at h
  obtain ⟨ha, hb⟩ := h
  have hmemrev : c ∈ s.reverse := by simpa using hmem
  obtain ⟨d1, d2⟩ := first_occ_decomp c s.reverse hmemrev
  constructor
  · have hs : s = ((s.reverse.dropWhile (· ≠ c)).tail).reverse
        ++ c :: (s.reverse.takeWhile (· ≠ c)).reverse := by
      conv_lhs => rw [← List.reverse_reverse s]
      conv_lhs => rw [d1]
      simp
    rw [ha, hb] at hs
    exact hs
  · rw [← hb]
    simpa using d2

/-! ## Declarative characterization of the version parser -/

/-- Declarative epoch split: either the string has no `:` and everything is
the rest, or the epoch is the part before the first `:` (no `:` inside). -/
def EpochSplit (s : List Char) (e : Option (List Char)) (rest : List Char) : Prop :=
  (e = none ∧ rest = s ∧ ':' ∉ s) ∨
  (∃ ep, e = some ep ∧ ':' ∉ ep ∧ s = ep ++ ':' :: rest)

/-- Declarative revision split: either the rest has no `-` and is all
upstream, or the revision is the part after the last `-` (no `-` inside). -/
def RevSplit (rest u : List Char) (r : Option (List Char)) : Prop :=
  (r = none ∧ u = rest ∧ '-' ∉ rest) ∨
  (∃ rv, r = some rv ∧ '-' ∉ rv ∧ rest = u ++ '-' :: rv)

def epochGrammar (e : Option (List Char)) : Prop :=
  (match e with | some ep => reMatchEpoch ep | none => true) = true

def revGrammar (r : Option (List Char)) : Prop :=
  (match r with | some rv => reMatchRevision rv | none => true) = true

theorem parseVersionCheck_eq_some {e : Option (List Char)} {u : List Char}
    {r : Option (List Char)} {v : VersionParts} :
    parseVersionCheck e u r = some v ↔
      epochGrammar e ∧ reMatchUpstream u = true ∧ revGrammar r
        ∧ v = ⟨e.map digitsVal, u, r⟩ := by
  unfold parseVersionCheck epochGrammar revGrammar
  split
  · rename_i hcond
    rw [Bool.and_eq_true, Bool.and_eq_true] at hcond
    obtain ⟨⟨h1, h2⟩, h3⟩ := hcond
    constructor
    · intro h
      exact ⟨h1, h2, h3, (Option.some.inj h).symm⟩
    · rintro ⟨_, _, _, rfl⟩
      rfl
  · rename_i hcond
    constructor
    · intro h
      exact absurd h (by simp)
    · rintro ⟨h1, h2, h3, rfl⟩
      exact absurd (by rw [Bool.and_eq_true, Bool.and_eq_true]; exact ⟨⟨h1, h2⟩, h3⟩)
        hcond

theorem parseVersionRest_eq_some {e : Option (List Char)} {rest : List Char}
    {v : VersionParts} :
    parseVersionRest e rest = some v ↔
      ∃ u, RevSplit rest u v.revision ∧ epochGrammar e ∧ reMatchUpstream u = true
        ∧ revGrammar v.revision ∧ v.epoch = e.map digitsVal ∧ v.upstream = u := by
  obtain ⟨vep, vup, vrev⟩ := v
  constructor
  · intro h
    cases hsl : splitLast '-' rest with
    | none =>
        have hnr : '-' ∉ rest := splitLast_none_not_mem hsl
        simp only [parseVersionRest, hsl] at h
        obtain ⟨h1, h2, h3, hv⟩ := parseVersionCheck_eq_some.mp h
        obtain ⟨he, hu, hr⟩ : vep = e.map digitsVal ∧ vup = rest ∧ vrev = none := by
          rw [VersionParts.mk.injEq] at hv
          exact hv
        exact ⟨rest, Or.inl ⟨hr, hu.symm ▸ rfl, hnr⟩, h1, h2, hr ▸ h3, he, hu⟩
    | some q =>
        obtain ⟨a, b⟩ := q
        obtain ⟨hdec, hnmem⟩ := splitLast_some_decomp hsl
        simp only [parseVersionRest, hsl] at h
        obtain ⟨h1, h2, h3, hv⟩ := parseVersionCheck_eq_some.mp h
        obtain ⟨he, hu, hr⟩ : vep = e.map digitsVal ∧ vup = a ∧ vrev = some b := by
          rw [VersionParts.mk.injEq] at hv
          exact hv
        refine ⟨a, Or.inr ⟨b, hr, hnmem, hdec⟩, h1, h2, hr ▸ h3, he, hu⟩
  · rintro ⟨u, hrs, h1, h2, h3, he, hu⟩
    rcases hrs with ⟨hr0, rfl, hnr⟩ | ⟨rv, hr0, hnrv, rfl⟩
    · have hsl : splitLast '-' u = none := splitLast_eq_none hnr
      simp only [parseVersionRest, hsl]
      apply parseVersionCheck_eq_some.mpr
      refine ⟨h1, h2, hr0 ▸ h3, ?_⟩
      rw [VersionParts.mk.injEq]
      exact ⟨he, hu, hr0⟩
    · have hsl : splitLast '-' (u ++ '-' :: rv) = some (u, rv) :=
        splitLast_eq_some '-' u rv hnrv
      simp only [parseVersionRest, hsl]
      apply parseVersionCheck_eq_some.mpr
      refine ⟨h1, h2, hr0 ▸ h3, ?_⟩
      rw [VersionParts.mk.injEq]
      exact ⟨he, hu, hr0⟩

theorem parseVersion_eq_some_iff (s : List Char) (v : VersionParts) :
    parseVersion s = some v ↔
      ∃ e rest u, EpochSplit s e rest ∧ RevSplit rest u v.revision ∧
        epochGrammar e ∧ reMatchUpstream u = true ∧ revGrammar v.revision ∧
        v.epoch = e.map digitsVal ∧ v.upstream = u := by
  constructor
  · intro h
    cases hsf : splitFirst ':' s with
    | none =>
        have hns : ':' ∉ s := splitFirst_none_not_mem hsf
        simp only [parseVersion, hsf] at h
        obtain ⟨u, hrs, h1, h2, h3, he, hu⟩ := parseVersionRest_eq_some.mp h
        exact ⟨none, s, u, Or.inl ⟨rfl, rfl, hns⟩, hrs, h1, h2, h3, he, hu⟩
    | some p =>
        obtain ⟨a, rest⟩ := p
        obtain ⟨hdec, hnmem⟩ := splitFirst_some_decomp hsf
        simp only [parseVersion, hsf] at h
        obtain ⟨u, hrs, h1, h2, h3, he, hu⟩ := parseVersionRest_eq_some.mp h
        exact ⟨some a, rest, u, Or.inr ⟨a, rfl, hnmem, hdec⟩, hrs, h1, h2, h3, he, hu⟩
  · rintro ⟨e, rest, u, hes, hrs, h1, h2, h3, he, hu⟩
    rcases hes with ⟨rfl, rfl, hns⟩ | ⟨ep, rfl, hnep, rfl⟩
    · have hsf : splitFirst ':' rest = none := splitFirst_eq_none hns
      simp only [parseVersion, hsf]
      exact parseVersionRest_eq_some.mpr ⟨u, hrs, h1, h2, h3, he, hu⟩
    · have hsf : splitFirst ':' (ep ++ ':' :: rest) = some (ep, rest) :=
        splitFirst_eq_some ':' ep rest hnep
      simp only [parseVersion, hsf]
      exact parseVersionRest_eq_some.mpr ⟨u, hrs, h1, h2, h3, he, hu⟩

/-- C2 (amended): `Version` construction splits the string at the FIRST `:`
into epoch and remainder (the code's `index(':')`, confirmed by its test
`test_multi_colon`) and at the last `-` of the remainder into upstream and
revision, succeeding exactly when every present component matches its
grammar; and `Version("1-2-3")` yields upstream `"1-2"` and revision `"3"`. -/
theorem claim_C2 :
    (∀ (s : List Char) (v : VersionParts),
      parseVersion s = some v ↔
        ∃ e rest u, EpochSplit s e rest ∧ RevSplit rest u v.revision ∧
          epochGrammar e ∧ reMatchUpstream u = true ∧ revGrammar v.revision ∧
          v.epoch = e.map digitsVal ∧ v.upstream = u) ∧
    parseVersion "1-2-3".toList
      = some ⟨none, "1-2".toList, some ("3".toList)⟩ := by
  exact ⟨parseVersion_eq_some_iff, by decide⟩

/-- C2 counterexample: the claim says the epoch boundary is the LAST `:`; on
`"1:2:3"` that reading rejects the string (epoch candidate `"1:2"` fails the
digit grammar) while the code accepts it with epoch 1 and upstream `"2:3"`,
exactly as its own test asserts. -/
theorem claim_C2_counterexample :
    parseVersion "1:2:3".toList = some ⟨some 1, "2:3".toList, none⟩ ∧
    parseVersionSpecLastColon "1:2:3".toList = none := by
  decide

/-! ## Decimal rendering lemmas and the version round trip -/

theorem digitChar_isDigit : ∀ d : Nat, d < 10 → (Nat.digitChar d).isDigit = true := by
  decide

theorem digitChar_toNat : ∀ d : Nat, d < 10 → (Nat.digitChar d).toNat - 48 = d := by
  decide

theorem natToCharsAux_digits : ∀ (fuel n : Nat), n < fuel →
    ∀ c ∈ natToCharsAux fuel n, c.isDigit = true := by
  intro fuel
  induction fuel with
  | zero => intro n h; exact absurd h (by omega)
  | succ fuel ih =>
      intro n h c hc
      rw [natToCharsAux] at hc
      by_cases h10 : n < 10
      · rw [if_pos h10] at hc
        rcases List.mem_singleton.mp hc with rfl
        exact digitChar_isDigit n h10
      · rw [if_neg h10] at hc
        rcases List.mem_append.mp hc with hc | hc
        · have hlt : n / 10 < fuel := by
            have hd := Nat.div_lt_self (by omega : 0 < n) (by omega : 1 < 10)
            omega
          exact ih (n / 10) hlt c hc
        · rcases List.mem_singleton.mp hc with rfl
          exact digitChar_isDigit _ (Nat.mod_lt n (by omega))

theorem natToCharsAux_ne_nil : ∀ (fuel n : Nat), n < fuel →
    natToCharsAux fuel n ≠ [] := by
  intro fuel n h
  cases fuel with
  | zero => exact absurd h (by omega)
  | succ fuel =>
      rw [natToCharsAux]
      by_cases h10 : n < 10
      · rw [if_pos h10]
        simp
      · rw [if_neg h10]
        simp

theorem natToCharsAux_val : ∀ (fuel n a : Nat), n < fuel →
    (natToCharsAux fuel n).foldl (fun acc c => 10 * acc + (c.toNat - 48)) a
      = a * 10 ^ (natToCharsAux fuel n).length + n := by
  intro fuel
  induction fuel with
  | zero => intro n a h; exact absurd h (by omega)
  | succ fuel ih =>
      intro n a h
      rw [natToCharsAux]
      by_cases h10 : n < 10
      · rw [if_pos h10]
        simp only [List.foldl_cons, List.foldl_nil, List.length_singleton]
        rw [digitChar_toNat n h10]
        ring
      · rw [if_neg h10]
        have hlt : n / 10 < fuel := by
          have hd := Nat.div_lt_self (by omega : 0 < n) (by omega : 1 < 10)
          omega
        rw [List.foldl_append, ih (n / 10) a hlt]
        simp only [List.foldl_cons, List.foldl_nil, List.length_append,
          List.length_singleton]
        rw [digitChar_toNat _ (Nat.mod_lt n (by omega))]
        calc 10 * (a * 10 ^ (natToCharsAux fuel (n / 10)).length + n / 10) + n % 10
            = a * (10 ^ (natToCharsAux fuel (n / 10)).length * 10)
              + (10 * (n / 10) + n % 10) := by ring
          _ = a * 10 ^ ((natToCharsAux fuel (n / 10)).length + 1) + n := by
              rw [Nat.div_add_mod, pow_succ]

theorem natToChars_digits (n : Nat) : ∀ c ∈ natToChars n, c.isDigit = true :=
  natToCharsAux_digits (n + 1) n (by omega)

theorem natToChars_ne_nil (n : Nat) : natToChars n ≠ [] :=
  natToCharsAux_ne_nil (n + 1) n (by omega)

theorem digitsVal_natToChars (n : Nat) : digitsVal (natToChars n) = n := by
  unfold digitsVal
  have htw : (natToChars n).takeWhile Char.isDigit = natToChars n :=
    List.takeWhile_eq_self_iff.mpr fun c hc => natToChars_digits n c hc
  rw [htw]
  unfold natToChars
  rw [natToCharsAux_val (n + 1) n 0 (by omega)]
  simp

theorem natToChars_no_colon (n : Nat) : ':' ∉ natToChars n := by
  intro hmem
  have hd := natToChars_digits n ':' hmem
  exact absurd hd (by decide)

theorem reMatchEpoch_natToChars (n : Nat) : reMatchEpoch (natToChars n) = true := by
  unfold reMatchEpoch
  have htw : (natToChars n).takeWhile Char.isDigit = natToChars n :=
    List.takeWhile_eq_self_iff.mpr fun c hc => natToChars_digits n c hc
  rw [htw, Bool.and_eq_true]
  constructor
  · simp [List.isEmpty_iff, natToChars_ne_nil n]
  · unfold endAnchor
    rw [List.drop_length]
    simp

/-- C7: re-parsing the canonical rendering of any accepted version yields the
same components — `parse(str(parse(v)))` has the same epoch, upstream and
revision as `parse(v)`. -/
theorem claim_C7 :
    ∀ (s : List Char) (v : VersionParts),
      parseVersion s = some v → parseVersion (versionComplete v) = some v := by
  intro s v h
  obtain ⟨vep, vup, vrev⟩ := v
  obtain ⟨e, rest, u, hes, hrs, h1, h2, h3, he, hu⟩ :=
    (parseVersion_eq_some_iff s ⟨vep, vup, vrev⟩).mp h
  simp only at he hu
  subst hu
  apply (parseVersion_eq_some_iff _ _).mpr
  rcases hes with ⟨rfl, rfl, hns⟩ | ⟨ep, rfl, hnep, rfl⟩
  · -- no epoch: the whole input is the rest, which contains no colon
    obtain rfl : vep = none := he
    rcases hrs with ⟨hv0, rfl, hnr⟩ | ⟨rv, hv0, hnrv, hresteq⟩
    · obtain rfl : vrev = none := hv0
      have hvc : versionComplete ⟨none, vup, none⟩ = vup := by
        simp [versionComplete]
      rw [hvc]
      exact ⟨none, vup, vup, Or.inl ⟨rfl, rfl, hns⟩, Or.inl ⟨rfl, rfl, hnr⟩,
        h1, h2, h3, rfl, rfl⟩
    · obtain rfl : vrev = some rv := hv0
      subst hresteq
      have hvc : versionComplete ⟨none, vup, some rv⟩ = vup ++ '-' :: rv := by
        simp [versionComplete]
      rw [hvc]
      have hnsu : ':' ∉ vup := fun hm => hns (List.mem_append.mpr (Or.inl hm))
      have hnsrv : ':' ∉ vup ++ '-' :: rv := hns
      exact ⟨none, vup ++ '-' :: rv, vup, Or.inl ⟨rfl, rfl, hnsrv⟩,
        Or.inr ⟨rv, rfl, hnrv, rfl⟩, h1, h2, h3, rfl, rfl⟩
  · -- epoch present: the rendering starts with the decimal digits of the epoch
    obtain rfl : vep = some (digitsVal ep) := he
    rcases hrs with ⟨hv0, rfl, hnr⟩ | ⟨rv, hv0, hnrv, hresteq⟩
    · obtain rfl : vrev = none := hv0
      have hvc : versionComplete ⟨some (digitsVal ep), vup, none⟩
          = natToChars (digitsVal ep) ++ ':' :: vup := by
        simp [versionComplete]
      rw [hvc]
      refine ⟨some (natToChars (digitsVal ep)), vup, vup,
        Or.inr ⟨natToChars (digitsVal ep), rfl, natToChars_no_colon _, rfl⟩,
        Or.inl ⟨rfl, rfl, hnr⟩, ?_, h2, h3, ?_, rfl⟩
      · exact reMatchEpoch_natToChars _
      · simp [digitsVal_natToChars]
    · obtain rfl : vrev = some rv := hv0
      subst hresteq
      have hvc : versionComplete ⟨some (digitsVal ep), vup, some rv⟩
          = natToChars (digitsVal ep) ++ ':' :: (vup ++ '-' :: rv) := by
        simp [versionComplete]
      rw [hvc]
      refine ⟨some (natToChars (digitsVal ep)), vup ++ '-' :: rv, vup,
        Or.inr ⟨natToChars (digitsVal ep), rfl, natToChars_no_colon _, rfl⟩,
        Or.inr ⟨rv, rfl, hnrv, rfl⟩, ?_, h2, h3, ?_, rfl⟩
      · exact reMatchEpoch_natToChars _
      · simp [digitsVal_natToChars]

/-- C7 witness: the version string `"5:1.2.3-4"` round-trips. -/
theorem claim_C7_witness :
    parseVersion (versionComplete ⟨some 5, "1.2.3".toList, some ("4".toList)⟩)
      = some ⟨some 5, "1.2.3".toList, some ("4".toList)⟩ :=
  claim_C7 "5:1.2.3-4".toList ⟨some 5, "1.2.3".toList, some ("4".toList)⟩ (by decide)
